import Mathlib

/-!
Shallow embedding of the lawmemegenerator client (App.tsx, services/api.ts,
components/ImageDisplay.tsx) and proofs about its submission orchestration
and gallery logic.

Strings are modelled as Lean `String` (a list of characters); the JavaScript
string operations used by the code (`trim`, `toLowerCase`, `split`, regex
replacement with the concrete patterns appearing in the source) are embedded
as executable functions below.  Per-character lower-casing is ASCII, which
agrees with JS `toLowerCase` for every character that can survive the
`[a-z0-9\s-]` filter applied right after it, and with the non-unicode
case-insensitive regex flag for the ASCII marker words matched here.
-/

namespace LawMemes

/-- The character class of the JavaScript regex escape `\s`
(ECMAScript WhiteSpace and LineTerminator), which is also the set of
characters removed by `String.prototype.trim`. -/
def jsSpace (c : Char) : Bool :=
  c.toNat = 0x09 || c.toNat = 0x0A || c.toNat = 0x0B || c.toNat = 0x0C ||
  c.toNat = 0x0D || c.toNat = 0x20 || c.toNat = 0xA0 || c.toNat = 0x1680 ||
  (0x2000 ≤ c.toNat && c.toNat ≤ 0x200A) ||
  c.toNat = 0x2028 || c.toNat = 0x2029 || c.toNat = 0x202F ||
  c.toNat = 0x205F || c.toNat = 0x3000 || c.toNat = 0xFEFF

/-- JS `String.prototype.trim` on a character list: remove leading and
trailing whitespace. -/
def jsTrimList (l : List Char) : List Char :=
  (l.dropWhile jsSpace).rdropWhile jsSpace

/-- JS `String.prototype.trim`. -/
def jsTrim (s : String) : String :=
  ⟨jsTrimList s.data⟩

/-- JS `String.prototype.split("\n")`: cut at every newline, keeping empty
pieces (`"".split("\n")` is `[""]`). -/
def splitNewlines : List Char → List (List Char)
  | [] => [[]]
  | c :: r =>
    if c = '\n' then [] :: splitNewlines r
    else
      match splitNewlines r with
      | w :: ws => (c :: w) :: ws
      | [] => [[c]]

/-! ### ImageDisplay: download filenames (`handleDownload`) -/

/-- A character kept by `replace(/[^a-z0-9\s-]/g, "")` in `handleDownload`. -/
def keptChar (c : Char) : Bool :=
  ('a' ≤ c && c ≤ 'z') || ('0' ≤ c && c ≤ '9') || jsSpace c || c = '-'

/-- `replace(/\s+/g, "-")`: each maximal run of whitespace characters becomes
a single hyphen.  The flag records whether the previous character was
whitespace (i.e. whether we are inside a run whose hyphen is already
emitted). -/
def hyphenateWsAux : Bool → List Char → List Char
  | _, [] => []
  | insideRun, c :: r =>
    if jsSpace c then
      if insideRun then hyphenateWsAux true r else '-' :: hyphenateWsAux true r
    else c :: hyphenateWsAux false r

/-- `replace(/\s+/g, "-")` on a character list. -/
def hyphenateWs (l : List Char) : List Char :=
  hyphenateWsAux false l

/-- The `cleanDescription` pipeline inside `handleDownload`:
`description.toLowerCase().replace(/[^a-z0-9\s-]/g, "").trim()
.replace(/\s+/g, "-").substring(0, 30)`. -/
def cleanDescription (d : String) : String :=
  ⟨(hyphenateWs (jsTrimList ((d.data.map Char.toLower).filter keptChar))).take 30⟩

/-- The download filename computed by `handleDownload` in ImageDisplay
(`link.download`).  The description argument is `descriptions[index]`:
`none` models the JS `undefined` read, and the guard `if (description)`
is JS truthiness, so the empty string also falls back to the index-based
name. -/
def computeDownloadFilename (index : Nat) (description : Option String) : String :=
  match description with
  | some d =>
    if d ≠ "" then "law-meme-" ++ cleanDescription d ++ ".png"
    else "law-meme-" ++ toString (index + 1) ++ ".png"
  | none => "law-meme-" ++ toString (index + 1) ++ ".png"

/-! Spec-side formulation of the filename body, following the words of the
specification: lower-case, remove every character outside `[a-z0-9\s-]`,
trim, collapse internal whitespace runs to single hyphens, truncate to the
first 30 characters.  The collapse step is phrased independently of the
code: split the trimmed text into its maximal whitespace-free words and
join them with single hyphens. -/

/-- Maximal whitespace-free words of a character list, in order.  The
accumulator holds the (reversed) word currently being read. -/
def wsWordsAux : List Char → List Char → List (List Char)
  | acc, [] => if acc.isEmpty then [] else [acc.reverse]
  | acc, c :: r =>
    if jsSpace c then
      if acc.isEmpty then wsWordsAux [] r else acc.reverse :: wsWordsAux [] r
    else wsWordsAux (c :: acc) r

/-- Maximal whitespace-free words of a character list, in order. -/
def wsWords (l : List Char) : List (List Char) :=
  wsWordsAux [] l

/-- Join words with single hyphens. -/
def joinHyphen : List (List Char) → List Char
  | [] => []
  | [w] => w
  | w :: ws => w ++ '-' :: joinHyphen ws

/-- Filename body as described by the specification (see above). -/
def specCleanBody (d : String) : String :=
  ⟨(joinHyphen (wsWords (jsTrimList ((d.data.map Char.toLower).filter keptChar)))).take 30⟩

/-! ### ImageDisplay: displayed prompt text and enlarge toggle -/

/-- Case-insensitive match of an ASCII pattern (given in lower case) at the
head of a list; on success returns the characters after the match.  This is
how the non-unicode `i` regex flag compares the ASCII letters of the marker
words. -/
def matchCI : List Char → List Char → Option (List Char)
  | [], s => some s
  | _ :: _, [] => none
  | p :: ps, c :: cs => if c.toLower = p then matchCI ps cs else none

/-- The punctuation class `[.:,]` of the marker regexes. -/
def isPunct (c : Char) : Bool :=
  c == '.' || c == ':' || c == ','

/-- The regex tail `[.:,]?\s*`: one optional punctuation character, then
greedily all following whitespace. -/
def dropPunctWs : List Char → List Char
  | [] => []
  | c :: r =>
    if isPunct c then r.dropWhile jsSpace
    else (c :: r).dropWhile jsSpace

/-- The regex piece `\s+`: one mandatory whitespace character, then greedily
all further whitespace, then continue with `k`.  Greedy matching never needs
backtracking here because the continuation starts with a non-whitespace
literal. -/
def reqSpaceThen (k : List Char → Option (List Char)) : List Char → Option (List Char)
  | [] => none
  | c :: r => if jsSpace c then k (r.dropWhile jsSpace) else none

/-- The regex `/^square\s+image[.:,]?\s*/i` matched at the start of a list;
on success returns the remainder. -/
def matchSquareSpaceImage (s : List Char) : Option (List Char) :=
  (matchCI "square".data s).bind
    (reqSpaceThen fun r1 => (matchCI "image".data r1).map dropPunctWs)

/-- The regex `/^squareimage[.:,]?\s*/i` matched at the start of a list. -/
def matchSquareImageJoined (s : List Char) : Option (List Char) :=
  (matchCI "squareimage".data s).map dropPunctWs

/-- `String.prototype.replace` with a `^`-anchored, non-global regex:
replace the match with the empty string if there is one, otherwise return
the input unchanged. -/
def replaceOnce (m : List Char → Option (List Char)) (s : List Char) : List Char :=
  (m s).getD s

/-- The displayed prompt text computed in the enlarged caption of
ImageDisplay:
`desc.replace(/^square\s+image[.:,]?\s*/i, "").replace(/^squareimage[.:,]?\s*/i, "").trim()`. -/
def computeDisplayDescription (s : String) : String :=
  ⟨jsTrimList (replaceOnce matchSquareImageJoined (replaceOnce matchSquareSpaceImage s.data))⟩

/-- `handleImageClick` in ImageDisplay:
`setEnlargedImage(enlargedImage === index ? null : index)`. -/
def handleImageClick (index : Nat) (enlargedImage : Option Nat) : Option Nat :=
  if enlargedImage = some index then none else some index

/-! ### services/api.ts: the description client -/

/-- One element of `candidates[0].content.parts` in a Gemini response:
an optional text and an optional inline image payload. -/
structure GeminiPart where
  text : Option String
  inlineData : Option String
deriving DecidableEq

/-- `candidates[i].content`. -/
structure GeminiContent where
  parts : List GeminiPart
deriving DecidableEq

/-- One element of `candidates`. -/
structure GeminiCandidate where
  content : GeminiContent
deriving DecidableEq

/-- The response body of a Gemini call. -/
structure GeminiResponse where
  candidates : List GeminiCandidate
deriving DecidableEq

/-- JS truthiness of `part.text`: defined and non-empty.  This is the
predicate of `parts.find((part) => part.text)`. -/
def partTextTruthy (p : GeminiPart) : Bool :=
  match p.text with
  | some t => t ≠ ""
  | none => false

/-- `generateMemeDescriptions` from services/api.ts, as a function of the
outcome of the axios call.  `Except.error` is a transport or parse failure:
the surrounding try/catch turns it into `[]`.  An empty `candidates` list
makes `candidates[0].content` throw, which the same catch also turns into
`[]`.  On text, the code runs
`text.split("\n").filter((line) => line.trim() !== "").slice(0, 4)`. -/
def generateMemeDescriptions (resp : Except Unit GeminiResponse) : List String :=
  match resp with
  | .error _ => []
  | .ok r =>
    match r.candidates with
    | [] => []
    | cand :: _ =>
      match cand.content.parts.find? partTextTruthy with
      | some p =>
        match p.text with
        | some t =>
          ((((splitNewlines t.data).map fun l => (⟨l⟩ : String)).filter
            fun line => jsTrim line ≠ "").take 4)
        | none => []
      | none => []

/-- Spec-side accessor: the text of the textual part of a response, i.e. the
first part of the first candidate whose text is present and non-empty. -/
def responseTextPart (r : GeminiResponse) : Option String :=
  match r.candidates with
  | [] => none
  | cand :: _ =>
    match cand.content.parts.find? partTextTruthy with
    | some p => p.text
    | none => none

/-- Spec-side: the non-blank lines of a block of text, in order. -/
def nonBlankLines (t : String) : List String :=
  ((splitNewlines t.data).map fun l => (⟨l⟩ : String)).filter
    fun line => jsTrim line ≠ ""

/-! ### App.tsx: the submission orchestrator (`handleSubmit`) -/

/-- The orchestrator state owned by App: the six `useState` cells that
`handleSubmit` touches.  Progress is a rational number standing for the
JS float. -/
structure AppState where
  isLoading : Bool
  showResults : Bool
  images : List String
  descriptions : List String
  error : Option String
  loadingProgress : ℚ
deriving DecidableEq

/-- The environment of one submission: whether the API key is configured,
the outcome of the description call, and the (already error-mapped) result
of the image call for each description index — `makeGeminiRequest` never
rejects, it resolves with the base64 payload or with `""`. -/
structure SubmitEnv where
  apiKeyPresent : Bool
  descResponse : Except Unit GeminiResponse
  imageResult : Nat → String

/-- What one call of `handleSubmit` does: the final state, the number of
description requests issued, and the indices of the image requests
issued. -/
structure SubmitOutcome where
  state : AppState
  descCalls : Nat
  imageCalls : List Nat
deriving DecidableEq

/-- The user-visible message set when description generation fails. -/
def failedMessage : String :=
  "Failed to generate images. Please try again."

/-- The user-visible message set when the API key is missing. -/
def apiKeyMessage : String :=
  "API key is missing. Please check your .env or .env.local file and make sure REACT_APP_GEMINI_API_KEY is set."

/-- `memeDescriptions.filter((_, index) => generatedImages[index] !== "")`:
keep the descriptions whose index position carries a non-empty image result.
An out-of-range index reads `undefined` in JS, which compares `!== ""` as
true, so descriptions beyond the results list are kept. -/
def filterByImageMask : List String → List String → List String
  | [], _ => []
  | d :: ds, [] => d :: filterByImageMask ds []
  | d :: ds, r :: rs =>
    if r ≠ "" then d :: filterByImageMask ds rs else filterByImageMask ds rs

/-- `handleSubmit` from App.tsx as a state transformer.  The guard, the key
check, the state reset, the description call, the abort path and the final
filtered publication mirror the source; the intermediate progress values
(0, 30, 30 + i·70/N) are overwritten before the cycle ends, so only the
final value appears in the outcome state. -/
def handleSubmit (env : SubmitEnv) (topic : String) (st : AppState) : SubmitOutcome :=
  if jsTrim topic = "" ∨ st.isLoading then ⟨st, 0, []⟩
  else if env.apiKeyPresent = false then ⟨{ st with error := some apiKeyMessage }, 0, []⟩
  else
    let memeDescriptions := generateMemeDescriptions env.descResponse
    if memeDescriptions.length = 0 then
      ⟨{ isLoading := false, showResults := false, images := [],
         descriptions := [], error := some failedMessage,
         loadingProgress := 0 }, 1, []⟩
    else
      let generatedImages := (List.range memeDescriptions.length).map env.imageResult
      let validImages := generatedImages.filter fun img => img ≠ ""
      let validDescriptions := filterByImageMask memeDescriptions generatedImages
      ⟨{ isLoading := false, showResults := true, images := validImages,
         descriptions := validDescriptions, error := none,
         loadingProgress := 100 }, 1, List.range memeDescriptions.length⟩

/-! ### App.tsx: the order of the remote calls in `handleSubmit`

The temporal claims are settled over an event trace.  Each embedded step
threads the trace explicitly; events are appended when the corresponding
JS expression runs.  Under run-to-completion scheduling no promise callback
can run inside the synchronous `map`, so the start of every image request
precedes the observation of any completion. -/

/-- Events of one submission cycle. -/
inductive GenEvent where
  | descCall : GenEvent
  | descDone : GenEvent
  | imgCall : Nat → GenEvent
  | imgDone : Nat → GenEvent
deriving DecidableEq

/-- `await generateMemeDescriptions(text)`: the description request is
issued and its settlement awaited before anything later runs. -/
def descRequestEvents (tr : List GenEvent) : List GenEvent :=
  tr ++ [GenEvent.descCall, GenEvent.descDone]

/-- `makeGeminiRequest(description)` for description `i`: calling it starts
the HTTP request at once and returns a pending promise (modelled by the
index). -/
def startImageRequest (i : Nat) (tr : List GenEvent) : Nat × List GenEvent :=
  (i, tr ++ [GenEvent.imgCall i])

/-- `memeDescriptions.map((description) => makeGeminiRequest(description))`:
the map runs synchronously and starts every request. -/
def mapStartRequests : List Nat → List GenEvent → List Nat × List GenEvent
  | [], tr => ([], tr)
  | i :: is, tr =>
    let (p, tr1) := startImageRequest i tr
    let (ps, tr2) := mapStartRequests is tr1
    (p :: ps, tr2)

/-- `await imagePromises[i]` inside the for loop: the completion of request
`i` is observed here. -/
def awaitImageRequest (p : Nat) (tr : List GenEvent) : List GenEvent :=
  tr ++ [GenEvent.imgDone p]

/-- The `for` loop over `imagePromises`. -/
def awaitLoop : List Nat → List GenEvent → List GenEvent
  | [], tr => tr
  | p :: ps, tr => awaitLoop ps (awaitImageRequest p tr)

/-- The event trace of one submission cycle that gets `k` descriptions and
reaches the image phase. -/
def handleSubmitTrace (k : Nat) : List GenEvent :=
  let tr1 := descRequestEvents []
  let (promises, tr2) := mapStartRequests (List.range k) tr1
  awaitLoop promises tr2

/-- Position of the first occurrence of an event in a trace. -/
def eventPos (tr : List GenEvent) (e : GenEvent) : Nat :=
  tr.findIdx fun x => x = e

/-- The ordering property asserted by the specification for a cycle with
`k` image calls: the description call completes before any image request is
issued, and request `i + 1` is issued only after request `i` has
completed. -/
abbrev seqIssuanceClaim (tr : List GenEvent) (k : Nat) : Prop :=
  (∀ i < k, eventPos tr GenEvent.descDone < eventPos tr (GenEvent.imgCall i)) ∧
  (∀ i < k - 1, eventPos tr (GenEvent.imgDone i) < eventPos tr (GenEvent.imgCall (i + 1)))

/-! ## Helper lemmas -/

theorem dropWhile_cons_true {p : Char → Bool} {c : Char} {r : List Char}
    (h : p c = true) : List.dropWhile p (c :: r) = List.dropWhile p r := by
  simp [List.dropWhile_cons, h]

theorem dropWhile_cons_false {p : Char → Bool} {c : Char} {r : List Char}
    (h : p c = false) : List.dropWhile p (c :: r) = c :: r := by
  simp [List.dropWhile_cons, h]

/-- Leading whitespace stays removed after also removing trailing
whitespace: `rdropWhile` only shortens from the right. -/
theorem dropWhile_rdropWhile {p : Char → Bool} {m : List Char}
    (h : m.dropWhile p = m) :
    (m.rdropWhile p).dropWhile p = m.rdropWhile p := by
  rcases hr : m.rdropWhile p with _ | ⟨c, t⟩
  · simp
  · obtain ⟨s, hs⟩ := List.rdropWhile_prefix p m
    rw [hr] at hs
    have hm : m = c :: (t ++ s) := by rw [← hs]; simp
    have hc : p c = false := by
      by_contra hpc
      have hpc' : p c = true := by
        cases hpcv : p c
        · exact absurd hpcv hpc
        · rfl
      have h' := h
      rw [hm, dropWhile_cons_true hpc'] at h'
      have hlen := congrArg List.length h'
      have hle : (List.dropWhile p (t ++ s)).length ≤ (t ++ s).length :=
        (List.dropWhile_suffix p).sublist.length_le
      simp at hlen hle
      omega
    exact dropWhile_cons_false hc

/-- The trimmed form of a list has no leading whitespace. -/
theorem dropWhile_jsTrimList (l : List Char) :
    (jsTrimList l).dropWhile jsSpace = jsTrimList l :=
  dropWhile_rdropWhile (List.dropWhile_idempotent jsSpace l)

/-- JS `trim` is idempotent. -/
theorem jsTrimList_idem (l : List Char) :
    jsTrimList (jsTrimList l) = jsTrimList l := by
  unfold jsTrimList
  rw [dropWhile_rdropWhile (List.dropWhile_idempotent jsSpace l),
    List.rdropWhile_idempotent]

theorem jsTrimList_eq_of_jsTrim {X : String} (h : jsTrim X = X) :
    jsTrimList X.data = X.data :=
  congrArg String.data h

theorem dropWhile_eq_of_jsTrim {X : String} (h : jsTrim X = X) :
    X.data.dropWhile jsSpace = X.data := by
  have h1 := jsTrimList_eq_of_jsTrim h
  calc X.data.dropWhile jsSpace
      = (jsTrimList X.data).dropWhile jsSpace := by rw [h1]
    _ = jsTrimList X.data := dropWhile_jsTrimList X.data
    _ = X.data := h1

/-- A case-insensitive match that consumes its whole input extends to any
longer input, leaving exactly the extension. -/
theorem matchCI_append {pat pre : List Char} (h : matchCI pat pre = some [])
    (rest : List Char) : matchCI pat (pre ++ rest) = some rest := by
  induction pat generalizing pre with
  | nil =>
    cases pre with
    | nil => rfl
    | cons c cs => simp [matchCI] at h
  | cons p ps ih =>
    cases pre with
    | nil => simp [matchCI] at h
    | cons c cs =>
      rw [matchCI] at h
      rw [List.cons_append, matchCI]
      by_cases hc : c.toLower = p
      · rw [if_pos hc] at h ⊢
        exact ih h
      · rw [if_neg hc] at h
        exact absurd h (by simp)

theorem reqSpaceThen_ws (k : List Char → Option (List Char)) {c : Char}
    (r : List Char) (h : jsSpace c = true) :
    reqSpaceThen k (c :: r) = k (r.dropWhile jsSpace) := by
  simp [reqSpaceThen, h]

theorem reqSpaceThen_nonws (k : List Char → Option (List Char)) {c : Char}
    (r : List Char) (h : jsSpace c = false) :
    reqSpaceThen k (c :: r) = none := by
  simp [reqSpaceThen, h]

theorem dropPunctWs_pos {c : Char} (r : List Char) (h : isPunct c = true) :
    dropPunctWs (c :: r) = r.dropWhile jsSpace := by
  simp [dropPunctWs, h]

theorem dropPunctWs_neg {c : Char} (r : List Char) (h : isPunct c = false) :
    dropPunctWs (c :: r) = (c :: r).dropWhile jsSpace := by
  simp [dropPunctWs, h]

/-- Stripping the marker variant `"Square image. X"`. -/
theorem stripVariantDot (d : List Char) (hlead : d.dropWhile jsSpace = d)
    (hfree : matchCI "squareimage".data d = none) (htrim : jsTrimList d = d) :
    computeDisplayDescription ("Square image. " ++ (⟨d⟩ : String)) = ⟨d⟩ := by
  have e1 : matchSquareSpaceImage (("Square image. " ++ (⟨d⟩ : String)).data) = some d := by
    simp only [matchSquareSpaceImage]
    have hre : ("Square image. " ++ (⟨d⟩ : String)).data
        = "Square".data ++ (' ' :: ("image. ".data ++ d)) := rfl
    rw [hre, @matchCI_append "square".data "Square".data (by decide)
      (' ' :: ("image. ".data ++ d)), Option.some_bind,
      reqSpaceThen_ws _ _ (by decide)]
    have hdw : ("image. ".data ++ d).dropWhile jsSpace = "image. ".data ++ d :=
      @dropWhile_cons_false jsSpace 'i' ("mage. ".data ++ d) (by decide)
    rw [hdw]
    have m2 : matchCI "image".data ("image. ".data ++ d) = some ('.' :: (' ' :: d)) :=
      @matchCI_append "image".data "image".data (by decide) ('.' :: (' ' :: d))
    rw [m2, Option.map_some', dropPunctWs_pos _ (by decide),
      dropWhile_cons_true (by decide), hlead]
  simp only [computeDisplayDescription, replaceOnce, e1, Option.getD_some,
    matchSquareImageJoined, hfree, Option.map_none', Option.getD_none, htrim]

/-- Stripping the marker variant `"Square image X"` (no punctuation). -/
theorem stripVariantPlain (d : List Char) (hlead : d.dropWhile jsSpace = d)
    (hfree : matchCI "squareimage".data d = none) (htrim : jsTrimList d = d) :
    computeDisplayDescription ("Square image " ++ (⟨d⟩ : String)) = ⟨d⟩ := by
  have e1 : matchSquareSpaceImage (("Square image " ++ (⟨d⟩ : String)).data) = some d := by
    simp only [matchSquareSpaceImage]
    have hre : ("Square image " ++ (⟨d⟩ : String)).data
        = "Square".data ++ (' ' :: ("image ".data ++ d)) := rfl
    rw [hre, @matchCI_append "square".data "Square".data (by decide)
      (' ' :: ("image ".data ++ d)), Option.some_bind,
      reqSpaceThen_ws _ _ (by decide)]
    have hdw : ("image ".data ++ d).dropWhile jsSpace = "image ".data ++ d :=
      @dropWhile_cons_false jsSpace 'i' ("mage ".data ++ d) (by decide)
    rw [hdw]
    have m2 : matchCI "image".data ("image ".data ++ d) = some (' ' :: d) :=
      @matchCI_append "image".data "image".data (by decide) (' ' :: d)
    rw [m2, Option.map_some', dropPunctWs_neg _ (by decide),
      dropWhile_cons_true (by decide), hlead]
  simp only [computeDisplayDescription, replaceOnce, e1, Option.getD_some,
    matchSquareImageJoined, hfree, Option.map_none', Option.getD_none, htrim]

/-- Stripping the marker variant `"square image, X"`. -/
theorem stripVariantComma (d : List Char) (hlead : d.dropWhile jsSpace = d)
    (hfree : matchCI "squareimage".data d = none) (htrim : jsTrimList d = d) :
    computeDisplayDescription ("square image, " ++ (⟨d⟩ : String)) = ⟨d⟩ := by
  have e1 : matchSquareSpaceImage (("square image, " ++ (⟨d⟩ : String)).data) = some d := by
    simp only [matchSquareSpaceImage]
    have hre : ("square image, " ++ (⟨d⟩ : String)).data
        = "square".data ++ (' ' :: ("image, ".data ++ d)) := rfl
    rw [hre, @matchCI_append "square".data "square".data (by decide)
      (' ' :: ("image, ".data ++ d)), Option.some_bind,
      reqSpaceThen_ws _ _ (by decide)]
    have hdw : ("image, ".data ++ d).dropWhile jsSpace = "image, ".data ++ d :=
      @dropWhile_cons_false jsSpace 'i' ("mage, ".data ++ d) (by decide)
    rw [hdw]
    have m2 : matchCI "image".data ("image, ".data ++ d) = some (',' :: (' ' :: d)) :=
      @matchCI_append "image".data "image".data (by decide) (',' :: (' ' :: d))
    rw [m2, Option.map_some', dropPunctWs_pos _ (by decide),
      dropWhile_cons_true (by decide), hlead]
  simp only [computeDisplayDescription, replaceOnce, e1, Option.getD_some,
    matchSquareImageJoined, hfree, Option.map_none', Option.getD_none, htrim]

/-- Stripping the marker variant `"SQUARE IMAGE: X"`. -/
theorem stripVariantColon (d : List Char) (hlead : d.dropWhile jsSpace = d)
    (hfree : matchCI "squareimage".data d = none) (htrim : jsTrimList d = d) :
    computeDisplayDescription ("SQUARE IMAGE: " ++ (⟨d⟩ : String)) = ⟨d⟩ := by
  have e1 : matchSquareSpaceImage (("SQUARE IMAGE: " ++ (⟨d⟩ : String)).data) = some d := by
    simp only [matchSquareSpaceImage]
    have hre : ("SQUARE IMAGE: " ++ (⟨d⟩ : String)).data
        = "SQUARE".data ++ (' ' :: ("IMAGE: ".data ++ d)) := rfl
    rw [hre, @matchCI_append "square".data "SQUARE".data (by decide)
      (' ' :: ("IMAGE: ".data ++ d)), Option.some_bind,
      reqSpaceThen_ws _ _ (by decide)]
    have hdw : ("IMAGE: ".data ++ d).dropWhile jsSpace = "IMAGE: ".data ++ d :=
      @dropWhile_cons_false jsSpace 'I' ("MAGE: ".data ++ d) (by decide)
    rw [hdw]
    have m2 : matchCI "image".data ("IMAGE: ".data ++ d) = some (':' :: (' ' :: d)) :=
      @matchCI_append "image".data "IMAGE".data (by decide) (':' :: (' ' :: d))
    rw [m2, Option.map_some', dropPunctWs_pos _ (by decide),
      dropWhile_cons_true (by decide), hlead]
  simp only [computeDisplayDescription, replaceOnce, e1, Option.getD_some,
    matchSquareImageJoined, hfree, Option.map_none', Option.getD_none, htrim]

/-- Stripping the marker variant `"SquareImage X"` (no space inside the
marker): here the first regex does not match and the second one fires. -/
theorem stripVariantJoined (d : List Char) (hlead : d.dropWhile jsSpace = d)
    (htrim : jsTrimList d = d) :
    computeDisplayDescription ("SquareImage " ++ (⟨d⟩ : String)) = ⟨d⟩ := by
  have e1 : matchSquareSpaceImage (("SquareImage " ++ (⟨d⟩ : String)).data) = none := by
    simp only [matchSquareSpaceImage]
    have hre : ("SquareImage " ++ (⟨d⟩ : String)).data
        = "Square".data ++ ('I' :: ("mage ".data ++ d)) := rfl
    rw [hre, @matchCI_append "square".data "Square".data (by decide)
      ('I' :: ("mage ".data ++ d)), Option.some_bind]
    exact reqSpaceThen_nonws _ _ (by decide)
  have e2 : matchSquareImageJoined (("SquareImage " ++ (⟨d⟩ : String)).data) = some d := by
    simp only [matchSquareImageJoined]
    have hre : ("SquareImage " ++ (⟨d⟩ : String)).data
        = "SquareImage".data ++ (' ' :: d) := rfl
    rw [hre, @matchCI_append "squareimage".data "SquareImage".data (by decide)
      (' ' :: d), Option.map_some', dropPunctWs_neg _ (by decide),
      dropWhile_cons_true (by decide), hlead]
  simp only [computeDisplayDescription, replaceOnce, e1, Option.getD_none, e2,
    Option.getD_some, htrim]

/-- Stripping the marker variant `"Square  image   X"` (irregular internal
spacing). -/
theorem stripVariantSpaces (d : List Char) (hlead : d.dropWhile jsSpace = d)
    (hfree : matchCI "squareimage".data d = none) (htrim : jsTrimList d = d) :
    computeDisplayDescription ("Square  image   " ++ (⟨d⟩ : String)) = ⟨d⟩ := by
  have e1 : matchSquareSpaceImage (("Square  image   " ++ (⟨d⟩ : String)).data) = some d := by
    simp only [matchSquareSpaceImage]
    have hre : ("Square  image   " ++ (⟨d⟩ : String)).data
        = "Square".data ++ (' ' :: (' ' :: ("image   ".data ++ d))) := rfl
    rw [hre, @matchCI_append "square".data "Square".data (by decide)
      (' ' :: (' ' :: ("image   ".data ++ d))), Option.some_bind,
      reqSpaceThen_ws _ _ (by decide), dropWhile_cons_true (by decide)]
    have hdw : ("image   ".data ++ d).dropWhile jsSpace = "image   ".data ++ d :=
      @dropWhile_cons_false jsSpace 'i' ("mage   ".data ++ d) (by decide)
    rw [hdw]
    have m2 : matchCI "image".data ("image   ".data ++ d)
        = some (' ' :: (' ' :: (' ' :: d))) :=
      @matchCI_append "image".data "image".data (by decide) (' ' :: (' ' :: (' ' :: d)))
    rw [m2, Option.map_some', dropPunctWs_neg _ (by decide),
      dropWhile_cons_true (by decide), dropWhile_cons_true (by decide),
      dropWhile_cons_true (by decide), hlead]
  simp only [computeDisplayDescription, replaceOnce, e1, Option.getD_some,
    matchSquareImageJoined, hfree, Option.map_none', Option.getD_none, htrim]

/-! ## Collapsing whitespace runs equals joining words with hyphens -/

/-- No trailing whitespace. -/
def noTrailWs (l : List Char) : Prop :=
  ∀ x, l.getLast? = some x → jsSpace x = false

theorem noTrailWs_nil : noTrailWs [] := by
  intro x hx
  simp at hx

theorem noTrailWs_of_cons {c : Char} {r : List Char} (h : noTrailWs (c :: r)) :
    noTrailWs r := by
  cases r with
  | nil => exact noTrailWs_nil
  | cons b t =>
    intro x hx
    exact h x (by rw [List.getLast?_cons_cons]; exact hx)

theorem noTrailWs_append {u v : List Char}
    (h : noTrailWs (u ++ v)) : noTrailWs v := by
  intro x hx
  apply h x
  rw [List.getLast?_append, hx]
  rfl

/-- A list with no trailing whitespace whose head is whitespace has a
non-whitespace character further on. -/
theorem dropWhile_ne_nil_of_noTrail {c : Char} {r : List Char}
    (hc : jsSpace c = true) (h : noTrailWs (c :: r)) :
    r.dropWhile jsSpace ≠ [] := by
  intro hnil
  have hall : ∀ x ∈ r, jsSpace x = true := List.dropWhile_eq_nil_iff.mp hnil
  have hall' : ∀ x ∈ c :: r, jsSpace x = true := by
    intro x hx
    rcases List.mem_cons.mp hx with hx | hx
    · rw [hx]; exact hc
    · exact hall x hx
  have hne : (c :: r) ≠ [] := by simp
  have hlast := h ((c :: r).getLast hne) (List.getLast?_eq_getLast _ hne)
  rw [hall' _ (List.getLast_mem hne)] at hlast
  exact absurd hlast (by simp)

theorem hyphenateWsAux_true (r : List Char) :
    hyphenateWsAux true r = hyphenateWsAux false (r.dropWhile jsSpace) := by
  induction r with
  | nil => rfl
  | cons c t ih =>
    by_cases hc : jsSpace c
    · rw [List.dropWhile_cons, if_pos hc]
      simp only [hyphenateWsAux, hc, if_pos]
      exact ih
    · have hc' : jsSpace c = false := by
        cases h : jsSpace c
        · rfl
        · exact absurd h hc
      rw [List.dropWhile_cons, if_neg (by simp [hc'])]
      simp [hyphenateWsAux, hc']

theorem wsWordsAux_nil_dropWhile (r : List Char) :
    wsWordsAux [] r = wsWordsAux [] (r.dropWhile jsSpace) := by
  induction r with
  | nil => rfl
  | cons c t ih =>
    by_cases hc : jsSpace c
    · rw [List.dropWhile_cons, if_pos hc]
      simpa [wsWordsAux, hc] using ih
    · rw [List.dropWhile_cons, if_neg (by simpa using hc)]

theorem wsWordsAux_ne_nil (l : List Char) :
    ∀ acc : List Char, acc ≠ [] → wsWordsAux acc l ≠ [] := by
  induction l with
  | nil =>
    intro acc hacc
    simp [wsWordsAux, List.isEmpty_eq_false.mpr hacc]
  | cons c t ih =>
    intro acc hacc
    by_cases hc : jsSpace c
    · simp [wsWordsAux, hc, List.isEmpty_eq_false.mpr hacc]
    · simpa [wsWordsAux, hc] using ih (c :: acc) (by simp)

theorem joinHyphen_cons_ne {w : List Char} {L : List (List Char)} (h : L ≠ []) :
    joinHyphen (w :: L) = w ++ '-' :: joinHyphen L := by
  cases L with
  | nil => exact absurd rfl h
  | cons x xs => rfl

/-- The head of a non-trivial `dropWhile` result does not satisfy the
predicate. -/
theorem head_dropWhile_false {p : Char → Bool} :
    ∀ {r : List Char} {d : Char} {r2 : List Char},
    r.dropWhile p = d :: r2 → p d = false := by
  intro r
  induction r with
  | nil => intro d r2 h; simp at h
  | cons c t ih =>
    intro d r2 h
    rw [List.dropWhile_cons] at h
    by_cases hc : p c
    · rw [if_pos hc] at h
      exact ih h
    · rw [if_neg hc] at h
      injection h with h1 h2
      subst h1
      cases hv : p c
      · rfl
      · exact absurd hv hc

/-- Key accumulation lemma: on input with no trailing whitespace and with a
non-empty current word, joining the collected words with hyphens agrees with
the run-collapsing pass of the code. -/
theorem joinHyphen_wsWordsAux :
    ∀ (n : Nat) (l : List Char), l.length ≤ n → noTrailWs l →
    ∀ acc : List Char, acc ≠ [] →
    joinHyphen (wsWordsAux acc l) = acc.reverse ++ hyphenateWsAux false l := by
  intro n
  induction n with
  | zero =>
    intro l hl _ acc hacc
    have : l = [] := by
      cases l with
      | nil => rfl
      | cons c t => simp at hl
    subst this
    simp [wsWordsAux, List.isEmpty_eq_false.mpr hacc, joinHyphen, hyphenateWsAux]
  | succ n ih =>
    intro l hl htrail acc hacc
    cases l with
    | nil =>
      simp [wsWordsAux, List.isEmpty_eq_false.mpr hacc, joinHyphen, hyphenateWsAux]
    | cons c r =>
      have hrn : r.length ≤ n := by simpa using hl
      by_cases hc : jsSpace c
      · -- a whitespace run ends the current word
        have hne := dropWhile_ne_nil_of_noTrail hc htrail
        rcases hr' : r.dropWhile jsSpace with _ | ⟨d, r2⟩
        · exact absurd hr' hne
        · have hd : jsSpace d = false := head_dropWhile_false hr'
          have hsplit : ∃ u, u ++ (d :: r2) = r := by
            obtain ⟨u, hu⟩ := @List.dropWhile_suffix Char r jsSpace
            exact ⟨u, by rw [hr'] at hu; exact hu⟩
          obtain ⟨u, hu⟩ := hsplit
          have htr2 : noTrailWs r2 := by
            have h1 : noTrailWs (d :: r2) := by
              apply @noTrailWs_append (c :: u) (d :: r2)
              have heq : c :: u ++ (d :: r2) = c :: r := by
                rw [List.cons_append, hu]
              rwa [heq]
            exact noTrailWs_of_cons h1
          have hlen2 : r2.length ≤ n := by
            have h1 : (d :: r2).length ≤ r.length := by
              rw [← hr']
              exact (List.dropWhile_suffix jsSpace).sublist.length_le
            simp at h1
            omega
          have hrec := ih r2 hlen2 htr2 [d] (by simp)
          have hstep : wsWordsAux acc (c :: r) = acc.reverse :: wsWordsAux [d] r2 := by
            have h1 : wsWordsAux acc (c :: r) = acc.reverse :: wsWordsAux [] r := by
              simp [wsWordsAux, hc, List.isEmpty_eq_false.mpr hacc]
            rw [h1, wsWordsAux_nil_dropWhile, hr']
            simp [wsWordsAux, hd]
          rw [hstep, joinHyphen_cons_ne (wsWordsAux_ne_nil r2 [d] (by simp)), hrec]
          have hrhs : hyphenateWsAux false (c :: r) = '-' :: hyphenateWsAux true r := by
            simp [hyphenateWsAux, hc]
          rw [hrhs, hyphenateWsAux_true, hr']
          simp [hyphenateWsAux, hd]
      · have hc' : jsSpace c = false := by
          cases h : jsSpace c
          · rfl
          · exact absurd h hc
        have hstep : wsWordsAux acc (c :: r) = wsWordsAux (c :: acc) r := by
          simp [wsWordsAux, hc']
        have hrec := ih r hrn (noTrailWs_of_cons htrail) (c :: acc) (by simp)
        rw [hstep, hrec]
        simp [hyphenateWsAux, hc', List.reverse_cons]

/-- The first character of a list that is unchanged by `dropWhile p` does
not satisfy `p`. -/
theorem head_false_of_dropWhile_eq {p : Char → Bool} {c : Char} {r : List Char}
    (h : List.dropWhile p (c :: r) = c :: r) : p c = false := by
  by_contra hpc
  have hpc' : p c = true := by
    cases hv : p c
    · exact absurd hv hpc
    · rfl
  rw [dropWhile_cons_true hpc'] at h
  have hle : (List.dropWhile p r).length ≤ r.length :=
    (List.dropWhile_suffix p).sublist.length_le
  have hlen := congrArg List.length h
  simp at hlen
  omega

/-- On trimmed input, the run-collapsing pass of the code agrees with
splitting into words and joining with hyphens. -/
theorem hyphenateWs_eq_joinHyphen (l : List Char)
    (hlead : l.dropWhile jsSpace = l) (ht : l.rdropWhile jsSpace = l) :
    hyphenateWs l = joinHyphen (wsWords l) := by
  have htrail : noTrailWs l := by
    intro x hx
    have hne : l ≠ [] := by
      intro hnil
      rw [hnil] at hx
      simp at hx
    have := (List.rdropWhile_eq_self_iff.mp ht) hne
    have hx' : l.getLast hne = x := by
      have := List.getLast?_eq_getLast l hne
      rw [this] at hx
      exact Option.some_injective _ hx
    rw [hx'] at this
    cases hv : jsSpace x
    · rfl
    · exact absurd hv this
  cases l with
  | nil => rfl
  | cons c r =>
    have hc := head_false_of_dropWhile_eq hlead
    have hstep : wsWords (c :: r) = wsWordsAux [c] r := by
      simp [wsWords, wsWordsAux, hc]
    rw [hstep, joinHyphen_wsWordsAux r.length r le_rfl (noTrailWs_of_cons htrail)
      [c] (by simp)]
    simp [hyphenateWs, hyphenateWsAux, hc]

/-- The code pipeline of `handleDownload` computes the spec pipeline: the
two differ only in how collapsing whitespace runs is phrased. -/
theorem cleanDescription_eq_specCleanBody (d : String) :
    cleanDescription d = specCleanBody d := by
  unfold cleanDescription specCleanBody
  have h := hyphenateWs_eq_joinHyphen
    (jsTrimList ((d.data.map Char.toLower).filter keptChar))
    (dropWhile_jsTrimList _)
    (by unfold jsTrimList; exact List.rdropWhile_idempotent _ _)
  rw [h]

/-! ## Lemmas about the published display set -/

/-- The description list of a submission cycle. -/
def descList (env : SubmitEnv) : List String :=
  generateMemeDescriptions env.descResponse

/-- The image results of a submission cycle, one per description index. -/
def imageResults (env : SubmitEnv) : List String :=
  (List.range (descList env).length).map env.imageResult

theorem filter_eq_map_fst_zip :
    ∀ (rs ds : List String), rs.length = ds.length →
    rs.filter (fun r => r ≠ "") = ((rs.zip ds).filter fun p => p.1 ≠ "").map Prod.fst := by
  intro rs
  induction rs with
  | nil => intro ds _; rfl
  | cons r rt ih =>
    intro ds h
    cases ds with
    | nil => simp at h
    | cons d dt =>
      have h' : rt.length = dt.length := by simpa using h
      rw [List.zip_cons_cons, List.filter_cons, List.filter_cons]
      by_cases hr : r = ""
      · subst hr
        simpa using ih dt h'
      · have h1 : (decide (r ≠ "")) = true := by simp [hr]
        have h2 : (decide ((r, d).1 ≠ "")) = true := by simp [hr]
        rw [if_pos h1, if_pos h2, List.map_cons, ih dt h']

theorem filterByImageMask_eq_map_snd_zip :
    ∀ (rs ds : List String), rs.length = ds.length →
    filterByImageMask ds rs = ((rs.zip ds).filter fun p => p.1 ≠ "").map Prod.snd := by
  intro rs
  induction rs with
  | nil =>
    intro ds h
    cases ds with
    | nil => rfl
    | cons d dt => simp at h
  | cons r rt ih =>
    intro ds h
    cases ds with
    | nil => simp at h
    | cons d dt =>
      have h' : rt.length = dt.length := by simpa using h
      rw [List.zip_cons_cons, List.filter_cons]
      by_cases hr : r = ""
      · subst hr
        show filterByImageMask (d :: dt) ("" :: rt) = _
        rw [filterByImageMask, if_neg (by simp)]
        simpa using ih dt h'
      · have h2 : (decide ((r, d).1 ≠ "")) = true := by simp [hr]
        rw [if_pos h2, List.map_cons]
        show filterByImageMask (d :: dt) (r :: rt) = _
        rw [filterByImageMask, if_pos (by simpa using hr), ih dt h']

theorem filterByImageMask_all :
    ∀ (ds rs : List String), (∀ r ∈ rs, r ≠ "") → filterByImageMask ds rs = ds := by
  intro ds
  induction ds with
  | nil => intro rs _; rfl
  | cons d dt ih =>
    intro rs hall
    cases rs with
    | nil =>
      show filterByImageMask (d :: dt) [] = d :: dt
      rw [filterByImageMask, ih [] (by simp)]
    | cons r rt =>
      show filterByImageMask (d :: dt) (r :: rt) = d :: dt
      rw [filterByImageMask,
        if_pos (by simpa using hall r (List.mem_cons_self r rt)),
        ih rt fun x hx => hall x (List.mem_cons_of_mem r hx)]

/-! ## Lemmas about the event trace -/

theorem mapStartRequests_eq :
    ∀ (is : List Nat) (tr : List GenEvent),
    mapStartRequests is tr = (is, tr ++ is.map GenEvent.imgCall) := by
  intro is
  induction is with
  | nil => intro tr; simp [mapStartRequests]
  | cons i it ih =>
    intro tr
    rw [mapStartRequests]
    simp [startImageRequest, ih]

theorem awaitLoop_eq :
    ∀ (ps : List Nat) (tr : List GenEvent),
    awaitLoop ps tr = tr ++ ps.map GenEvent.imgDone := by
  intro ps
  induction ps with
  | nil => intro tr; simp [awaitLoop]
  | cons p pt ih =>
    intro tr
    rw [awaitLoop, awaitImageRequest, ih]
    simp

/-- The successful submission path of `handleSubmit`, fully evaluated. -/
theorem handleSubmit_success (env : SubmitEnv) (topic : String) (st : AppState)
    (htopic : jsTrim topic ≠ "") (hload : st.isLoading = false)
    (hkey : env.apiKeyPresent = true) (hne : descList env ≠ []) :
    handleSubmit env topic st =
      ⟨{ isLoading := false, showResults := true,
         images := (imageResults env).filter fun img => img ≠ "",
         descriptions := filterByImageMask (descList env) (imageResults env),
         error := none, loadingProgress := 100 }, 1,
        List.range (descList env).length⟩ := by
  have hne' : ¬ (generateMemeDescriptions env.descResponse).length = 0 := by
    rw [List.length_eq_zero]
    exact hne
  simp [handleSubmit, htopic, hload, hkey, hne', descList, imageResults]

/-- `generateMemeDescriptions` on a delivered response, through the
spec-side accessor. -/
theorem generateMemeDescriptions_ok (r : GeminiResponse) :
    generateMemeDescriptions (Except.ok r) =
      match responseTextPart r with
      | some t => (nonBlankLines t).take 4
      | none => [] := by
  obtain ⟨cands⟩ := r
  cases cands with
  | nil => rfl
  | cons cand rest =>
    simp only [generateMemeDescriptions, responseTextPart, nonBlankLines]
    cases hf : cand.content.parts.find? partTextTruthy with
    | none => rfl
    | some p =>
      cases hp : p.text with
      | none => rfl
      | some t => rfl

/-! ## The claims -/

/-- C1: in a submission cycle whose description call returns a non-empty
list and whose image calls each return a string (possibly empty), the
published display set keeps exactly the index positions with a non-empty
image, in original order, with descriptions filtered by the same index
mask; displayed images and descriptions have equal length, every displayed
image is non-empty, all items show when every image call succeeds, and one
fewer item shows, in preserved relative order, when exactly one fails. -/
theorem gallery_filtered_pairing (env : SubmitEnv) (topic : String) (st : AppState)
    (htopic : jsTrim topic ≠ "") (hload : st.isLoading = false)
    (hkey : env.apiKeyPresent = true) (hne : descList env ≠ []) :
    (handleSubmit env topic st).state.images
        = (((imageResults env).zip (descList env)).filter fun p => p.1 ≠ "").map Prod.fst ∧
    (handleSubmit env topic st).state.descriptions
        = (((imageResults env).zip (descList env)).filter fun p => p.1 ≠ "").map Prod.snd ∧
    (handleSubmit env topic st).state.images.length
        = (handleSubmit env topic st).state.descriptions.length ∧
    (∀ img ∈ (handleSubmit env topic st).state.images, img ≠ "") ∧
    ((∀ r ∈ imageResults env, r ≠ "") →
      (handleSubmit env topic st).state.images = imageResults env ∧
      (handleSubmit env topic st).state.descriptions = descList env) ∧
    (∀ a b : List String, imageResults env = a ++ "" :: b →
      (∀ x ∈ a, x ≠ "") → (∀ x ∈ b, x ≠ "") →
      (handleSubmit env topic st).state.images = a ++ b ∧
      (handleSubmit env topic st).state.images.length + 1 = (descList env).length) := by
  rw [handleSubmit_success env topic st htopic hload hkey hne]
  have hlen : (imageResults env).length = (descList env).length := by
    simp [imageResults]
  refine ⟨?_, ?_, ?_, ?_, ?_, ?_⟩
  · exact filter_eq_map_fst_zip (imageResults env) (descList env) hlen
  · exact filterByImageMask_eq_map_snd_zip (imageResults env) (descList env) hlen
  · show ((imageResults env).filter fun img => img ≠ "").length
        = (filterByImageMask (descList env) (imageResults env)).length
    rw [filter_eq_map_fst_zip _ _ hlen, filterByImageMask_eq_map_snd_zip _ _ hlen]
    simp
  · intro img hmem
    have hmem' : img ∈ (imageResults env).filter fun img => img ≠ "" := hmem
    have := List.of_mem_filter hmem'
    simpa using this
  · intro hall
    constructor
    · show ((imageResults env).filter fun img => img ≠ "") = imageResults env
      exact List.filter_eq_self.mpr fun a ha => by simpa using hall a ha
    · exact filterByImageMask_all (descList env) (imageResults env) hall
  · intro a b hsplit ha hb
    have hfa : a.filter (fun img => img ≠ "") = a :=
      List.filter_eq_self.mpr fun x hx => by simpa using ha x hx
    have hfb : b.filter (fun img => img ≠ "") = b :=
      List.filter_eq_self.mpr fun x hx => by simpa using hb x hx
    have himg : ((imageResults env).filter fun img => img ≠ "") = a ++ b := by
      rw [hsplit, List.filter_append, List.filter_cons]
      simp only [ne_eq, not_true_eq_false]
      rw [hfa, hfb]
      simp
    constructor
    · exact himg
    · show ((imageResults env).filter fun img => img ≠ "").length + 1
          = (descList env).length
      rw [himg, ← hlen, hsplit]
      simp
      omega

def sampleState : AppState := ⟨false, false, [], [], none, 0⟩

def sampleEnvOneFail : SubmitEnv :=
  ⟨true, Except.ok ⟨[⟨⟨[⟨some "a\nb\nc", none⟩]⟩⟩]⟩,
    fun i => if i = 1 then "" else "img"⟩

/-- C1, witness at a cycle with three descriptions and one failing image. -/
theorem gallery_filtered_pairing_witness :
    (handleSubmit sampleEnvOneFail "topic" sampleState).state.images.length
      = (handleSubmit sampleEnvOneFail "topic" sampleState).state.descriptions.length :=
  (gallery_filtered_pairing sampleEnvOneFail "topic" sampleState
    (by decide) rfl rfl (by decide)).2.2.1

/-- C2, counterexample: with two descriptions, the second image request is
issued before the completion of the first is observed, so the calls are not
issued one at a time as claimed. -/
theorem image_calls_not_sequential :
    ¬ seqIssuanceClaim (handleSubmitTrace 2) 2 := by decide

/-- C2, amended: the description call completes before any image request is
issued; the image requests are then all issued synchronously in description
order, before any completion is observed, and their completions are awaited
sequentially in description order. -/
theorem handleSubmitTrace_shape (k : Nat) :
    handleSubmitTrace k =
      [GenEvent.descCall, GenEvent.descDone]
        ++ (List.range k).map GenEvent.imgCall
        ++ (List.range k).map GenEvent.imgDone := by
  simp [handleSubmitTrace, descRequestEvents, mapStartRequests_eq, awaitLoop_eq]

/-- C3: when the description call fails in transport or returns zero
descriptions, the cycle aborts: loading ends, the single failure message is
set, the start-of-cycle reset is the only other state change, and no image
request is issued. -/
theorem desc_failure_aborts (env : SubmitEnv) (topic : String) (st : AppState)
    (htopic : jsTrim topic ≠ "") (hload : st.isLoading = false)
    (hkey : env.apiKeyPresent = true)
    (hfail : env.descResponse = Except.error ()
      ∨ generateMemeDescriptions env.descResponse = []) :
    handleSubmit env topic st =
      ⟨{ isLoading := false, showResults := false, images := [],
         descriptions := [], error := some failedMessage,
         loadingProgress := 0 }, 1, []⟩ := by
  have hempty : generateMemeDescriptions env.descResponse = [] := by
    rcases hfail with h | h
    · rw [h]
      rfl
    · exact h
  simp [handleSubmit, htopic, hload, hkey, hempty]

/-- C3, witness at a transport failure. -/
theorem desc_failure_aborts_witness :
    handleSubmit ⟨true, Except.error (), fun _ => "img"⟩ "topic" sampleState =
      ⟨{ isLoading := false, showResults := false, images := [],
         descriptions := [], error := some failedMessage,
         loadingProgress := 0 }, 1, []⟩ :=
  desc_failure_aborts ⟨true, Except.error (), fun _ => "img"⟩ "topic" sampleState
    (by decide) rfl rfl (Or.inl rfl)

/-- C4: a submission with a whitespace-only topic, or while a generation is
already loading, is a complete no-op: no description request, no image
requests, and no state change. -/
theorem submit_rejected_noop (env : SubmitEnv) (topic : String) (st : AppState)
    (h : jsTrim topic = "" ∨ st.isLoading = true) :
    handleSubmit env topic st = ⟨st, 0, []⟩ := by
  unfold handleSubmit
  rw [if_pos h]

/-- C4, witness at a whitespace-only topic. -/
theorem submit_rejected_noop_witness :
    handleSubmit ⟨true, Except.error (), fun _ => ""⟩ "   " sampleState
      = ⟨sampleState, 0, []⟩ :=
  submit_rejected_noop ⟨true, Except.error (), fun _ => ""⟩ "   " sampleState
    (Or.inl (by decide))

/-- C5: with a (truthy) description, the download filename is the fixed tag,
a hyphen, and the description lower-cased, stripped of characters outside
the kept class, trimmed, with whitespace runs collapsed to single hyphens,
truncated to 30 characters, suffixed with the image extension; with no
description it falls back to the index-based name; including the two
concrete examples of the specification. -/
theorem downloadFilename_spec (i : Nat) (d : String) (hd : d ≠ "") :
    computeDownloadFilename i (some d) = "law-meme-" ++ specCleanBody d ++ ".png" ∧
    computeDownloadFilename i none = "law-meme-" ++ toString (i + 1) ++ ".png" ∧
    computeDownloadFilename 0
        (some "A judge hammering a gavel with \x27Motion Denied\x27 text")
      = "law-meme-" ++ "a-judge-hammering-a-gavel-with" ++ ".png" ∧
    computeDownloadFilename 0 none = "law-meme-1.png" := by
  refine ⟨?_, rfl, by decide, rfl⟩
  simp only [computeDownloadFilename]
  rw [if_pos hd, cleanDescription_eq_specCleanBody]

/-- C5, witness. -/
theorem downloadFilename_spec_witness :
    computeDownloadFilename 3 (some "hello world")
      = "law-meme-" ++ specCleanBody "hello world" ++ ".png" :=
  (downloadFilename_spec 3 "hello world" (by decide)).1

/-- C6, counterexample: the displayed form is not exactly the suffix X for
every X — a suffix that itself starts with the joined marker is stripped a
second time, and a suffix with trailing whitespace is trimmed. -/
theorem marker_strip_not_exact :
    computeDisplayDescription ("Square image. " ++ "squareimage hi")
        ≠ "squareimage hi" ∧
    computeDisplayDescription ("Square image. " ++ "hi ") ≠ "hi " := by
  decide

/-- C6, amended: for every suffix X that carries no leading or trailing
whitespace and does not itself begin, case-insensitively, with the joined
marker word, all six marker variants reduce to exactly X. -/
theorem marker_variants_strip (X : String) (htrim : jsTrim X = X)
    (hfree : matchCI "squareimage".data X.data = none) :
    computeDisplayDescription ("Square image. " ++ X) = X ∧
    computeDisplayDescription ("Square image " ++ X) = X ∧
    computeDisplayDescription ("square image, " ++ X) = X ∧
    computeDisplayDescription ("SQUARE IMAGE: " ++ X) = X ∧
    computeDisplayDescription ("SquareImage " ++ X) = X ∧
    computeDisplayDescription ("Square  image   " ++ X) = X := by
  obtain ⟨d⟩ := X
  have htrim' : jsTrimList d = d := jsTrimList_eq_of_jsTrim htrim
  have hlead : d.dropWhile jsSpace = d := dropWhile_eq_of_jsTrim htrim
  exact ⟨stripVariantDot d hlead hfree htrim',
    stripVariantPlain d hlead hfree htrim',
    stripVariantComma d hlead hfree htrim',
    stripVariantColon d hlead hfree htrim',
    stripVariantJoined d hlead htrim',
    stripVariantSpaces d hlead hfree htrim'⟩

/-- C6, witness. -/
theorem marker_variants_strip_witness :
    computeDisplayDescription ("Square image. " ++ "hello") = "hello" :=
  (marker_variants_strip "hello" (by decide) (by decide)).1

/-- C7, counterexample: on an input with two stacked markers the operation
strips one layer per application, so it is not idempotent on every
string. -/
theorem displayDescription_not_idempotent :
    computeDisplayDescription
        (computeDisplayDescription "Square image. Square image. X")
      ≠ computeDisplayDescription "Square image. Square image. X" := by
  decide

/-- C7, amended: the operation is idempotent at every input whose output
does not itself begin with either marker pattern — in particular on
already-stripped text. -/
theorem displayDescription_idem_of_stripped (s : String)
    (h1 : matchSquareSpaceImage (computeDisplayDescription s).data = none)
    (h2 : matchSquareImageJoined (computeDisplayDescription s).data = none) :
    computeDisplayDescription (computeDisplayDescription s)
      = computeDisplayDescription s := by
  apply String.ext
  show jsTrimList (replaceOnce matchSquareImageJoined
      (replaceOnce matchSquareSpaceImage (computeDisplayDescription s).data))
    = (computeDisplayDescription s).data
  simp only [replaceOnce, h1, h2, Option.getD_none]
  exact jsTrimList_idem
    (replaceOnce matchSquareImageJoined (replaceOnce matchSquareSpaceImage s.data))

/-- C7, witness. -/
theorem displayDescription_idem_witness :
    computeDisplayDescription (computeDisplayDescription "Square image. hello")
      = computeDisplayDescription "Square image. hello" :=
  displayDescription_idem_of_stripped "Square image. hello" (by decide) (by decide)

/-- C8: clicking item i sets the enlarged selection to i when it is unset
or set to another index, clears it when it is already i; clicking the same
item twice from any other state returns to no selection, and clicking a
different item switches directly. -/
theorem selectItem_toggle (i : Nat) (s : Option Nat) :
    (s = none → handleImageClick i s = some i) ∧
    (∀ j : Nat, j ≠ i → s = some j → handleImageClick i s = some i) ∧
    (s = some i → handleImageClick i s = none) ∧
    (s ≠ some i → handleImageClick i (handleImageClick i s) = none) ∧
    (∀ j : Nat, j ≠ i → handleImageClick i (some j) = some i) := by
  refine ⟨?_, ?_, ?_, ?_, ?_⟩
  · intro h; subst h; simp [handleImageClick]
  · intro j hj h; subst h; simp [handleImageClick, hj]
  · intro h; subst h; simp [handleImageClick]
  · intro h; simp [handleImageClick, h]
  · intro j hj; simp [handleImageClick, hj]

/-- C8, witness. -/
theorem selectItem_toggle_witness : handleImageClick 0 (some 0) = none :=
  (selectItem_toggle 0 (some 0)).2.2.1 rfl

/-- C9: the description client returns the non-blank lines of the textual
part of the response in order, keeping at most four; a response without a
textual part, and a transport failure, give the empty list instead of an
error. -/
theorem descriptions_client_spec :
    generateMemeDescriptions (Except.error ()) = [] ∧
    (∀ r : GeminiResponse, responseTextPart r = none →
      generateMemeDescriptions (Except.ok r) = []) ∧
    (∀ (r : GeminiResponse) (t : String), responseTextPart r = some t →
      generateMemeDescriptions (Except.ok r) = (nonBlankLines t).take 4 ∧
      List.Sublist (generateMemeDescriptions (Except.ok r))
        ((splitNewlines t.data).map fun l => (⟨l⟩ : String)) ∧
      (generateMemeDescriptions (Except.ok r)).length ≤ 4) := by
  refine ⟨rfl, ?_, ?_⟩
  · intro r h
    rw [generateMemeDescriptions_ok, h]
  · intro r t h
    have he : generateMemeDescriptions (Except.ok r) = (nonBlankLines t).take 4 := by
      rw [generateMemeDescriptions_ok, h]
    refine ⟨he, ?_, ?_⟩
    · rw [he]
      exact (List.take_sublist _ _).trans (List.filter_sublist _)
    · rw [he]
      exact List.length_take_le _ _

def sampleResponse : GeminiResponse :=
  ⟨[⟨⟨[⟨some "one\n \ntwo\nthree\nfour\nfive", none⟩]⟩⟩]⟩

/-- C9, witness at a response whose text has a blank line and five
non-blank ones. -/
theorem descriptions_client_spec_witness :
    generateMemeDescriptions (Except.ok sampleResponse)
      = (nonBlankLines "one\n \ntwo\nthree\nfour\nfive").take 4 :=
  (descriptions_client_spec.2.2 sampleResponse "one\n \ntwo\nthree\nfour\nfive" rfl).1

/-- C10: a non-empty description always takes the description-based branch,
even when its cleaned form is empty — "!!!" yields "law-meme-.png" — and
the index-based fallback is used exactly when the description is absent or
is the empty string. -/
theorem downloadFilename_truthiness (i : Nat) (d : String) (hd : d ≠ "") :
    computeDownloadFilename i (some d) = "law-meme-" ++ cleanDescription d ++ ".png" ∧
    computeDownloadFilename 0 (some "!!!") = "law-meme-.png" ∧
    (∀ j : Nat, computeDownloadFilename j none
      = "law-meme-" ++ toString (j + 1) ++ ".png") ∧
    (∀ j : Nat, computeDownloadFilename j (some "")
      = "law-meme-" ++ toString (j + 1) ++ ".png") := by
  refine ⟨?_, by decide, fun j => rfl, fun j => ?_⟩
  · simp only [computeDownloadFilename]
    rw [if_pos hd]
  · simp only [computeDownloadFilename]
    rw [if_neg (by simp)]

/-- C10, witness. -/
theorem downloadFilename_truthiness_witness :
    computeDownloadFilename 0 (some "!!!")
      = "law-meme-" ++ cleanDescription "!!!" ++ ".png" :=
  (downloadFilename_truthiness 0 "!!!" (by decide)).1

end LawMemes
